import Mathlib

/-!
Verification development for the EMA-crossover backtest scripts
(`src/app.py` and `src/main.py`).  The two scripts share the same core
pipeline (`ema_crossover_backtest`): exponential moving averages over the
closing prices, a crossover signal, a one-bar-lagged position, percentage
returns, a cumulative-product portfolio simulation and summary metrics;
`main.py` additionally extracts discrete trades from position transitions
and brute-forces a window grid (`optimize_ema`).

Modelling conventions:
* closing prices and all derived numeric values are exact rationals (`ℚ`);
* a pandas `NaN` cell is modelled as `Option.none`; series that can hold
  `NaN` (shifted positions, percentage changes, strategy returns, the
  cumulative-product columns) are `List (Option _)`;
* pandas reductions (`cumprod`, `prod`, `mean`, `std`) skip `NaN` entries,
  which is modelled explicitly (`cumprodSkip`, `definedVals`);
* the float values `NaN` and `±∞` that can come out of the Sharpe-ratio
  division are modelled by the dedicated constructors of `SharpeVal`.
-/

namespace EMACross

/-- Smoothing factor of `Series.ewm(span=w, adjust=False)`: `α = 2/(span+1)`. -/
def emaAlpha (span : ℕ) : ℚ := 2 / (span + 1)

/-- Tail of the `adjust=False` exponential moving average: given the previous
EMA value `prev`, each output is `a*x + (1-a)*prev`. -/
def emaFrom (a : ℚ) : ℚ → List ℚ → List ℚ
  | _, [] => []
  | prev, x :: xs => (a * x + (1 - a) * prev) :: emaFrom a (a * x + (1 - a) * prev) xs

/-- `close.ewm(span=span, adjust=False).mean()` (src/app.py:18-19,
src/main.py:18-19): `ema[0] = close[0]`, `ema[i] = α·close[i] + (1-α)·ema[i-1]`.
pandas validates its argument and raises `ValueError("span must satisfy:
span >= 1")` for `span < 1`; this recurrence is its behaviour for `span ≥ 1`,
and the validation itself is modelled by `runBacktest` below. -/
def ema (span : ℕ) : List ℚ → List ℚ
  | [] => []
  | x :: xs => x :: emaFrom (emaAlpha span) x xs

/-- `np.where(EMA_short > EMA_long, 1, 0)` (src/app.py:22, src/main.py:22). -/
def signal (s l : ℕ) (close : List ℚ) : List ℤ :=
  List.zipWith (fun a b => if a > b then 1 else 0) (ema s close) (ema l close)

/-- pandas `Series.shift(1)`: `NaN` in front, last element dropped. -/
def shift1 {α : Type} : List α → List (Option α)
  | [] => []
  | x :: xs => none :: ((x :: xs).dropLast.map some)

/-- `data['Position'] = data['Signal'].shift(1)` (src/app.py:23, src/main.py:23). -/
def position (s l : ℕ) (close : List ℚ) : List (Option ℤ) :=
  shift1 (signal s l close)

/-- `data['Close'].pct_change()` (src/app.py:26, src/main.py:26):
`NaN` at index 0, then `close[i]/close[i-1] - 1`. -/
def pctChange : List ℚ → List (Option ℚ)
  | [] => []
  | x :: xs => none :: ((x :: xs).zip xs).map (fun p => some (p.2 / p.1 - 1))

/-- `NaN`-propagating product of two float cells. -/
def omul : Option ℚ → Option ℚ → Option ℚ
  | some x, some y => some (x * y)
  | _, _ => none

/-- The `Position` column viewed as floats (pandas holds `0.0 / 1.0 / NaN`). -/
def posQ (s l : ℕ) (close : List ℚ) : List (Option ℚ) :=
  (position s l close).map (Option.map (fun z : ℤ => (z : ℚ)))

/-- `data['Strategy_Return'] = data['Return'] * data['Position']`
(src/app.py:27, src/main.py:27). -/
def strategyReturn (s l : ℕ) (close : List ℚ) : List (Option ℚ) :=
  List.zipWith omul (pctChange close) (posQ s l close)

/-- pandas `Series.cumprod()` with the default `skipna=True`: `NaN` cells stay
`NaN` in the output and do not enter the running product. -/
def cumprodSkip : ℚ → List (Option ℚ) → List (Option ℚ)
  | _, [] => []
  | acc, none :: xs => none :: cumprodSkip acc xs
  | acc, some x :: xs => some (acc * x) :: cumprodSkip (acc * x) xs

/-- The elementwise `1 + series` of the source (`(1 + data['Strategy_Return'])`). -/
def onePlus : List (Option ℚ) → List (Option ℚ) :=
  List.map (Option.map (fun r => 1 + r))

/-- `data['Portfolio_Value'] = (1 + data['Strategy_Return']).cumprod() * initial_cash`
(src/app.py:30, src/main.py:30). -/
def portfolioValue (s l : ℕ) (close : List ℚ) (cash : ℚ) : List (Option ℚ) :=
  (cumprodSkip 1 (onePlus (strategyReturn s l close))).map (Option.map (fun v => v * cash))

/-- `data['Buy_Hold_Value'] = (1 + data['Return']).cumprod() * initial_cash`
(src/app.py:31, src/main.py:31). -/
def buyHoldValue (close : List ℚ) (cash : ℚ) : List (Option ℚ) :=
  (cumprodSkip 1 (onePlus (pctChange close))).map (Option.map (fun v => v * cash))

/-- `total_return = (data['Portfolio_Value'].iloc[-1] / initial_cash - 1) * 100`
(src/app.py:34, src/main.py:51), as a value: meaningful for a non-empty
series, where the last cell always exists and `none` models a `NaN` last
cell.  On an empty series `.iloc[-1]` raises `IndexError` instead; that error
path is modelled separately by `runBacktest`. -/
def totalReturn (s l : ℕ) (close : List ℚ) (cash : ℚ) : Option ℚ :=
  ((portfolioValue s l close cash).getLast?.bind id).map (fun pv => (pv / cash - 1) * 100)

/-- Outcome of one run of the metric pipeline of `ema_crossover_backtest`:
either an uncaught library exception, or the total-return metric
(`none` models a float `NaN` metric). -/
inductive BacktestOutcome : Type where
  | valueError : BacktestOutcome
  | indexError : BacktestOutcome
  | metrics : Option ℚ → BacktestOutcome
deriving DecidableEq

/-- The observable outcome of `ema_crossover_backtest` up to its metric
computation, in the code's execution order: `data['Close'].ewm(span=w, ...)`
(src/app.py:18-19) raises pandas' `ValueError("span must satisfy: span >= 1")`
as soon as either window is below 1; otherwise the whole column pipeline runs
(it is total, even on an empty frame), and `.iloc[-1]` (src/app.py:34) raises
`IndexError` when the frame has 0 rows; otherwise the metric value of
`totalReturn` is returned. -/
def runBacktest (s l : ℕ) (close : List ℚ) (cash : ℚ) : BacktestOutcome :=
  if s < 1 ∨ l < 1 then BacktestOutcome.valueError
  else if close.length = 0 then BacktestOutcome.indexError
  else BacktestOutcome.metrics (totalReturn s l close cash)

/-- The strategy-return value at row `k`, with `0` standing in for `NaN`
(only used at rows `k ≥ 1`, where the value is defined). -/
def srAt (s l : ℕ) (close : List ℚ) (k : ℕ) : ℚ :=
  ((strategyReturn s l close).getD k none).getD 0

/-- The raw-return value at row `k`, with `0` standing in for `NaN`. -/
def rrAt (close : List ℚ) (k : ℕ) : ℚ :=
  ((pctChange close).getD k none).getD 0

/-- The non-`NaN` cells of a series, in order (what pandas reductions act on). -/
def definedVals (xs : List (Option ℚ)) : List ℚ := xs.filterMap id

/-- pandas `Series.mean()` over the non-`NaN` cells; `NaN` (`none`) when empty. -/
def meanQ (xs : List ℚ) : Option ℚ :=
  if xs.length = 0 then none else some (xs.sum / xs.length)

/-- Sample variance matching pandas `Series.std(ddof=1)` squared: `NaN` (`none`)
when fewer than two defined values. -/
def sampleVarQ (xs : List ℚ) : Option ℚ :=
  if xs.length < 2 then none
  else some ((xs.map (fun x => (x - xs.sum / xs.length) ^ 2)).sum / ((xs.length : ℚ) - 1))

/-- Exact model of the float that
`(Strategy_Return.mean() / Strategy_Return.std()) * np.sqrt(252)`
(src/app.py:36, src/main.py:53) evaluates to: `nan` when the mean or the
standard deviation is `NaN` or when the division is `0/0`; `posInf`/`negInf`
for `±c/0`; `val m v` for the finite value `(m/√v)·√252` with `v ≠ 0` the
sample variance and `m` the mean. -/
inductive SharpeVal : Type where
  | nan : SharpeVal
  | posInf : SharpeVal
  | negInf : SharpeVal
  | val : ℚ → ℚ → SharpeVal
deriving DecidableEq

/-- The Sharpe-ratio computation of src/app.py:36 and src/main.py:53 on a
strategy-return column. -/
def sharpeRatio (sr : List (Option ℚ)) : SharpeVal :=
  match meanQ (definedVals sr), sampleVarQ (definedVals sr) with
  | none, _ => SharpeVal.nan
  | some _, none => SharpeVal.nan
  | some m, some v =>
      if v = 0 then
        (if m = 0 then SharpeVal.nan
         else if 0 < m then SharpeVal.posInf else SharpeVal.negInf)
      else SharpeVal.val m v

/-- A trade row of the `trades` DataFrame (src/main.py:40-44); calendar dates
are carried as integer row indices (the price series is strictly
date-ordered, so the two are interchangeable). -/
structure Trade where
  entryIdx : ℕ
  exitIdx : ℕ
  entryPrice : ℚ
  exitPrice : ℚ
  retPct : ℚ
deriving DecidableEq

/-- One row of the trades table: entry/exit prices are `Close` at the given
rows, `Return_% = (Exit_Price/Entry_Price - 1) * 100` (src/main.py:42-44). -/
def mkTrade (close : List ℚ) (e x : ℕ) : Trade :=
  { entryIdx := e, exitIdx := x, entryPrice := close.getD e 0, exitPrice := close.getD x 0,
    retPct := (close.getD x 0 / close.getD e 0 - 1) * 100 }

/-- Default row used with `List.getD` on trade lists. -/
def dummyTrade : Trade := ⟨0, 0, 0, 0, 0⟩

/-- Tail of pandas `Series.diff()`: difference with predecessor, `NaN` when
either cell is `NaN`. -/
def diffAux : Option ℤ → List (Option ℤ) → List (Option ℤ)
  | _, [] => []
  | prev, cur :: rest =>
      (match prev, cur with
       | some a, some b => some (b - a)
       | _, _ => none) :: diffAux cur rest

/-- `data['Trade'] = data['Position'].diff()` (src/main.py:34). -/
def diffO : List (Option ℤ) → List (Option ℤ)
  | [] => []
  | x :: xs => none :: diffAux x xs

/-- Row indices (from `i` on) whose cell equals `v`; models
`data[data['Trade'] == v].index` (src/main.py:35-36). -/
def idxAll (v : Option ℤ) : ℕ → List (Option ℤ) → List ℕ
  | _, [] => []
  | i, x :: xs => if x = v then i :: idxAll v (i + 1) xs else idxAll v (i + 1) xs

/-- `entries = data[data['Trade'] == 1].index` (src/main.py:35). -/
def entriesIdx (pos : List (Option ℤ)) : List ℕ := idxAll (some 1) 0 (diffO pos)

/-- `exits = data[data['Trade'] == -1].index` (src/main.py:36). -/
def exitsIdx (pos : List (Option ℤ)) : List ℕ := idxAll (some (-1)) 0 (diffO pos)

/-- Trade extraction of src/main.py:34-44: append one synthetic exit at the
last row when entries outnumber exits (src/main.py:37-38), then build the
trades table.  `none` models the `ValueError` that `pd.DataFrame` raises when
the two index lists still have different lengths. -/
def extractTrades (close : List ℚ) (pos : List (Option ℤ)) : Option (List Trade) :=
  let entries := entriesIdx pos
  let exits0 := exitsIdx pos
  let exits := if exits0.length < entries.length then exits0 ++ [close.length - 1] else exits0
  if entries.length = exits.length
  then some ((entries.zip exits).map (fun p => mkTrade close p.1 p.2))
  else none

/-- `total_return = (1 + data['Strategy_Return']).prod() - 1` inside
`optimize_ema` (src/main.py:123); pandas `prod` skips `NaN` cells. -/
def optTotalReturn (s l : ℕ) (close : List ℚ) : ℚ :=
  (definedVals (onePlus (strategyReturn s l close))).prod - 1

/-- `range(5, 21, 5)` (src/main.py:110). -/
def shortGrid : List ℕ := [5, 10, 15, 20]

/-- `range(20, 61, 10)` (src/main.py:111). -/
def longGrid : List ℕ := [20, 30, 40, 50, 60]

/-- The candidate pairs visited by the nested loops of src/main.py:110-113,
in loop order, with `short >= long` skipped by the `continue`. -/
def candPairs : List (ℕ × ℕ) :=
  shortGrid.flatMap (fun s => (longGrid.filter (fun l => decide (s < l))).map (fun l => (s, l)))

/-- The optimizer's objective for one candidate pair. -/
def trOf (close : List ℚ) (p : ℕ × ℕ) : ℚ := optTotalReturn p.1 p.2 close

/-- One iteration of the loop body of src/main.py:127-129: replace the running
best exactly when `total_return > best_return`; the running best starts at
`-np.inf` (src/main.py:105), modelled by `none`. -/
def optStep (close : List ℚ) (st : Option ℚ × (ℕ × ℕ)) (p : ℕ × ℕ) : Option ℚ × (ℕ × ℕ) :=
  match st.1 with
  | none => (some (trOf close p), p)
  | some b => if b < trOf close p then (some (trOf close p), p) else st

/-- `optimize_ema` (src/main.py:104-132) as a function of the downloaded close
series: fold the loop body over the candidate grid, return `best_params`
(initially `(0, 0)`, src/main.py:106). -/
def optimize_ema (close : List ℚ) : ℕ × ℕ :=
  (candPairs.foldl (optStep close) (none, (0, 0))).2

/-- First-wins maximiser: `bestFrom close p L` is the element of `p :: L`
with the strictly greatest objective, earliest on ties. -/
def bestFrom (close : List ℚ) : (ℕ × ℕ) → List (ℕ × ℕ) → (ℕ × ℕ)
  | p, [] => p
  | p, q :: qs =>
      if trOf close p < trOf close q then bestFrom close q qs else bestFrom close p qs

/-- Minimum of a close series (`0` for the empty series, which never occurs). -/
def listMin : List ℚ → ℚ
  | [] => 0
  | c :: cs => cs.foldl min c

/-- Maximum of a close series (`0` for the empty series, which never occurs). -/
def listMax : List ℚ → ℚ
  | [] => 0
  | c :: cs => cs.foldl max c

/-- Running products of a list starting from accumulator `a` (the defined part
of a skip-`NaN` `cumprod`). -/
def prefixProds (a : ℚ) : List ℚ → List ℚ
  | [] => []
  | z :: zs => (a * z) :: prefixProds (a * z) zs

/-- The defined tail of the `Return` column on `c :: cs`. -/
def retsList (c : ℚ) (cs : List ℚ) : List ℚ :=
  ((c :: cs).zip cs).map (fun p => p.2 / p.1 - 1)

/-- The defined tail of the `Position` column on `c :: cs`, as rationals. -/
def sigQList (s l : ℕ) (c : ℚ) (cs : List ℚ) : List ℚ :=
  ((signal s l (c :: cs)).dropLast).map (fun z : ℤ => (z : ℚ))

/-- The defined tail of the `Strategy_Return` column on `c :: cs`. -/
def srList (s l : ℕ) (c : ℚ) (cs : List ℚ) : List ℚ :=
  List.zipWith (fun x y => x * y) (retsList c cs) (sigQList s l c cs)

/-- The defined tail of the `Portfolio_Value` column on `c :: cs`. -/
def pvList (s l : ℕ) (c : ℚ) (cs : List ℚ) (cash : ℚ) : List ℚ :=
  (prefixProds 1 ((srList s l c cs).map (fun r => 1 + r))).map (fun v => v * cash)

/-- The defined tail of the `Buy_Hold_Value` column on `c :: cs`. -/
def bhList (c : ℚ) (cs : List ℚ) (cash : ℚ) : List ℚ :=
  (prefixProds 1 ((retsList c cs).map (fun r => 1 + r))).map (fun v => v * cash)

/-- Number of cells equal to `v`. -/
def cntV (v : Option ℤ) : List (Option ℤ) → ℕ
  | [] => 0
  | x :: xs => (if x = v then 1 else 0) + cntV v xs

/- ## Length and shape lemmas -/

theorem emaFrom_length (a : ℚ) : ∀ (xs : List ℚ) (p : ℚ), (emaFrom a p xs).length = xs.length := by
  intro xs
  induction xs with
  | nil => intro p; rfl
  | cons x xs ih => intro p; simp only [emaFrom, List.length_cons, ih]

theorem ema_length (w : ℕ) (close : List ℚ) : (ema w close).length = close.length := by
  cases close with
  | nil => rfl
  | cons c cs => simp [ema, emaFrom_length]

theorem signal_length (s l : ℕ) (close : List ℚ) : (signal s l close).length = close.length := by
  simp [signal, List.length_zipWith, ema_length]

theorem shift1_length {α : Type} (xs : List α) : (shift1 xs).length = xs.length := by
  cases xs with
  | nil => rfl
  | cons x xs => simp [shift1]

theorem position_length (s l : ℕ) (close : List ℚ) :
    (position s l close).length = close.length := by
  simp [position, shift1_length, signal_length]

theorem pctChange_length (close : List ℚ) : (pctChange close).length = close.length := by
  cases close with
  | nil => rfl
  | cons c cs => simp [pctChange]

theorem posQ_length (s l : ℕ) (close : List ℚ) : (posQ s l close).length = close.length := by
  simp [posQ, position_length]

theorem strategyReturn_length (s l : ℕ) (close : List ℚ) :
    (strategyReturn s l close).length = close.length := by
  simp [strategyReturn, List.length_zipWith, pctChange_length, posQ_length]

theorem cumprodSkip_length : ∀ (xs : List (Option ℚ)) (a : ℚ),
    (cumprodSkip a xs).length = xs.length := by
  intro xs
  induction xs with
  | nil => intro a; rfl
  | cons o xs ih => intro a; cases o <;> simp [cumprodSkip, ih]

theorem portfolioValue_length (s l : ℕ) (close : List ℚ) (cash : ℚ) :
    (portfolioValue s l close cash).length = close.length := by
  simp [portfolioValue, cumprodSkip_length, onePlus, strategyReturn_length]

theorem buyHoldValue_length (close : List ℚ) (cash : ℚ) :
    (buyHoldValue close cash).length = close.length := by
  simp [buyHoldValue, cumprodSkip_length, onePlus, pctChange_length]

theorem prefixProds_length : ∀ (zs : List ℚ) (a : ℚ), (prefixProds a zs).length = zs.length := by
  intro zs
  induction zs with
  | nil => intro a; rfl
  | cons z zs ih => intro a; simp [prefixProds, ih]

theorem signal_cons (s l : ℕ) (c : ℚ) (cs : List ℚ) :
    signal s l (c :: cs)
      = 0 :: List.zipWith (fun a b => if a > b then 1 else 0)
          (emaFrom (emaAlpha s) c cs) (emaFrom (emaAlpha l) c cs) := by
  simp [signal, ema, lt_irrefl]

theorem position_shape (s l : ℕ) (c : ℚ) (cs : List ℚ) :
    position s l (c :: cs) = none :: ((signal s l (c :: cs)).dropLast.map some) := by
  rw [position, signal_cons]
  rfl

theorem pctChange_shape (c : ℚ) (cs : List ℚ) :
    pctChange (c :: cs) = none :: (retsList c cs).map some := by
  simp only [pctChange, retsList, List.map_map]
  rfl

theorem posQ_shape (s l : ℕ) (c : ℚ) (cs : List ℚ) :
    posQ s l (c :: cs) = none :: (sigQList s l c cs).map some := by
  rw [posQ, position_shape]
  simp only [sigQList, List.map_cons, Option.map_none', List.map_map]
  rfl

theorem zipWith_omul_some : ∀ (as bs : List ℚ),
    List.zipWith omul (as.map some) (bs.map some)
      = (List.zipWith (fun x y => x * y) as bs).map some := by
  intro as
  induction as with
  | nil => intro bs; rfl
  | cons a as ih =>
      intro bs
      cases bs with
      | nil => rfl
      | cons b bs => simp [omul, ih]

theorem strategyReturn_shape (s l : ℕ) (c : ℚ) (cs : List ℚ) :
    strategyReturn s l (c :: cs) = none :: (srList s l c cs).map some := by
  rw [strategyReturn, pctChange_shape, posQ_shape]
  rw [List.zipWith_cons_cons, zipWith_omul_some]
  rfl

theorem onePlus_shape (ys : List ℚ) :
    onePlus (none :: ys.map some) = none :: (ys.map (fun r => 1 + r)).map some := by
  simp only [onePlus, List.map_cons, Option.map_none', List.map_map]
  rfl

theorem cumprodSkip_map_some : ∀ (zs : List ℚ) (a : ℚ),
    cumprodSkip a (zs.map some) = (prefixProds a zs).map some := by
  intro zs
  induction zs with
  | nil => intro a; rfl
  | cons z zs ih => intro a; simp [cumprodSkip, prefixProds, ih]

theorem map_optmap_shape (g : ℚ → ℚ) (ws : List ℚ) :
    (none :: ws.map some).map (Option.map g) = none :: (ws.map g).map some := by
  simp only [List.map_cons, Option.map_none', List.map_map]
  rfl

theorem portfolioValue_shape (s l : ℕ) (c : ℚ) (cs : List ℚ) (cash : ℚ) :
    portfolioValue s l (c :: cs) cash = none :: (pvList s l c cs cash).map some := by
  rw [portfolioValue, strategyReturn_shape, onePlus_shape]
  rw [show cumprodSkip 1 (none :: ((srList s l c cs).map (fun r => 1 + r)).map some)
        = none :: cumprodSkip 1 (((srList s l c cs).map (fun r => 1 + r)).map some) from rfl]
  rw [cumprodSkip_map_some, map_optmap_shape]
  rfl

theorem buyHoldValue_shape (c : ℚ) (cs : List ℚ) (cash : ℚ) :
    buyHoldValue (c :: cs) cash = none :: (bhList c cs cash).map some := by
  rw [buyHoldValue, pctChange_shape, onePlus_shape]
  rw [show cumprodSkip 1 (none :: ((retsList c cs).map (fun r => 1 + r)).map some)
        = none :: cumprodSkip 1 (((retsList c cs).map (fun r => 1 + r)).map some) from rfl]
  rw [cumprodSkip_map_some, map_optmap_shape]
  rfl

theorem retsList_length (c : ℚ) (cs : List ℚ) : (retsList c cs).length = cs.length := by
  simp [retsList]

theorem sigQList_length (s l : ℕ) (c : ℚ) (cs : List ℚ) :
    (sigQList s l c cs).length = cs.length := by
  simp [sigQList, signal_length]

theorem srList_length (s l : ℕ) (c : ℚ) (cs : List ℚ) :
    (srList s l c cs).length = cs.length := by
  simp [srList, List.length_zipWith, retsList_length, sigQList_length]

theorem pvList_length (s l : ℕ) (c : ℚ) (cs : List ℚ) (cash : ℚ) :
    (pvList s l c cs cash).length = cs.length := by
  simp [pvList, prefixProds_length, srList_length]

theorem bhList_length (c : ℚ) (cs : List ℚ) (cash : ℚ) :
    (bhList c cs cash).length = cs.length := by
  simp [bhList, prefixProds_length, retsList_length]

/- ## Index lemmas -/

theorem dropLast_getElem? {α : Type} :
    ∀ (L : List α) (j : ℕ), j + 1 < L.length → L.dropLast[j]? = L[j]? := by
  intro L
  induction L with
  | nil => intro j h; simp at h
  | cons x xs ih =>
      intro j h
      cases xs with
      | nil => simp at h
      | cons y ys =>
          rw [List.dropLast_cons₂]
          cases j with
          | zero => simp
          | succ j =>
              simp only [List.getElem?_cons_succ]
              exact ih j (by simpa using Nat.lt_of_succ_lt_succ h)

theorem getElem?_map_some {α : Type} (ws : List α) (d : α) (j : ℕ) (h : j < ws.length) :
    (ws.map some)[j]? = some (some (ws.getD j d)) := by
  rw [List.getElem?_map, List.getElem?_eq_getElem h, List.getD_eq_getElem ws d h]
  rfl

theorem prefixProds_getElem? : ∀ (zs : List ℚ) (a : ℚ) (j : ℕ), j < zs.length →
    (prefixProds a zs)[j]? = some (a * (zs.take (j + 1)).prod) := by
  intro zs
  induction zs with
  | nil => intro a j h; simp at h
  | cons z zs ih =>
      intro a j h
      cases j with
      | zero => simp [prefixProds]
      | succ j =>
          rw [show prefixProds a (z :: zs) = (a * z) :: prefixProds (a * z) zs from rfl]
          rw [List.getElem?_cons_succ, ih (a * z) j (by simpa using Nat.lt_of_succ_lt_succ h)]
          rw [show (z :: zs).take (j + 2) = z :: zs.take (j + 1) from rfl]
          rw [List.prod_cons, mul_assoc]

theorem prod_Icc_take (ys : List ℚ) : ∀ (i : ℕ), i ≤ ys.length →
    (∏ k ∈ Finset.Icc 1 i, (1 + ys.getD (k - 1) 0)) = ((ys.take i).map (fun y => 1 + y)).prod := by
  intro i
  induction i with
  | zero => intro _; simp
  | succ i ih =>
      intro h
      rw [Finset.prod_Icc_succ_top (by omega : 1 ≤ i + 1)]
      rw [ih (by omega), List.take_succ]
      have hi : i < ys.length := by omega
      rw [List.getElem?_eq_getElem hi]
      simp only [Nat.add_sub_cancel, List.getD_eq_getElem ys 0 hi, Option.toList_some]
      rw [List.map_append, List.prod_append]
      simp

theorem shaped_cumprod_getElem? (vs : List ℚ) (cash : ℚ) (i : ℕ) (h1 : 1 ≤ i)
    (h2 : i ≤ vs.length) :
    (none :: ((prefixProds 1 (vs.map (fun r => 1 + r))).map (fun v => v * cash)).map some)[i]?
      = some (some (cash * ∏ k ∈ Finset.Icc 1 i, (1 + vs.getD (k - 1) 0))) := by
  obtain ⟨j, rfl⟩ : ∃ j, i = j + 1 := ⟨i - 1, by omega⟩
  have hj : j < (vs.map (fun r => 1 + r)).length := by simpa using h2
  rw [List.getElem?_cons_succ, List.getElem?_map, List.getElem?_map,
    prefixProds_getElem? (vs.map (fun r => 1 + r)) 1 j hj]
  rw [← List.map_take]
  rw [prod_Icc_take vs (j + 1) (by simpa using h2)]
  simp only [Option.map_some']
  rw [one_mul, mul_comm]

theorem srAt_eq (s l : ℕ) (c : ℚ) (cs : List ℚ) (k : ℕ) (h1 : 1 ≤ k) (h2 : k ≤ cs.length) :
    srAt s l (c :: cs) k = (srList s l c cs).getD (k - 1) 0 := by
  rw [srAt, strategyReturn_shape]
  obtain ⟨j, rfl⟩ : ∃ j, k = j + 1 := ⟨k - 1, by omega⟩
  have hj : j < (srList s l c cs).length := by rw [srList_length]; omega
  rw [List.getD_cons_succ, List.getD_eq_getElem?_getD, getElem?_map_some _ 0 j hj]
  simp

theorem rrAt_eq (c : ℚ) (cs : List ℚ) (k : ℕ) (h1 : 1 ≤ k) (h2 : k ≤ cs.length) :
    rrAt (c :: cs) k = (retsList c cs).getD (k - 1) 0 := by
  rw [rrAt, pctChange_shape]
  obtain ⟨j, rfl⟩ : ∃ j, k = j + 1 := ⟨k - 1, by omega⟩
  have hj : j < (retsList c cs).length := by rw [retsList_length]; omega
  rw [List.getD_cons_succ, List.getD_eq_getElem?_getD, getElem?_map_some _ 0 j hj]
  simp

theorem position_lag_aux (s l : ℕ) (c : ℚ) (cs : List ℚ) :
    ∀ i, 1 ≤ i → i < (c :: cs).length →
      (position s l (c :: cs))[i]?
        = some (some ((signal s l (c :: cs)).getD (i - 1) 0)) := by
  rw [position_shape]
  intro i h1 hi
  obtain ⟨j, rfl⟩ : ∃ j, i = j + 1 := ⟨i - 1, by omega⟩
  have hlen : j + 1 < (signal s l (c :: cs)).length := by
    rw [signal_length]; exact hi
  have hj : j < (signal s l (c :: cs)).length := by omega
  rw [List.getElem?_cons_succ, List.getElem?_map, dropLast_getElem? _ j hlen,
    List.getElem?_eq_getElem hj]
  simp only [Nat.add_sub_cancel, Option.map_some']
  rw [List.getD_eq_getElem _ 0 hj]

/- ## Claim C1 -/

/-- C1 counterexample: with prices `[1, 2]` and the default windows `12 < 26`,
row 0 of the `Position` column is `NaN` (`shift(1)` leaves no prior signal),
not the numeric value `0` the claim asserts. -/
theorem C1_position_zero_cex :
    (position 12 26 [(1 : ℚ), 2])[0]? = some none ∧
    (position 12 26 [(1 : ℚ), 2])[0]? ≠ some (some 0) := by
  refine ⟨rfl, ?_⟩
  rw [show (position 12 26 [(1 : ℚ), 2])[0]? = some none from rfl]
  decide

/-- C1 (amended): for every price series of length ≥ 2 and valid window pair,
`position[i] = signal[i-1]` for all `1 ≤ i < n` (one-bar lag, no look-ahead),
while `position[0]` is the undefined/`NaN` cell produced by `shift(1)`,
not the numeric value 0. -/
theorem C1_position_lag (s l : ℕ) (close : List ℚ) (hs : 0 < s) (hsl : s < l)
    (h2 : 2 ≤ close.length) :
    (position s l close)[0]? = some none ∧
    ∀ i, 1 ≤ i → i < close.length →
      (position s l close)[i]? = some (some ((signal s l close).getD (i - 1) 0)) := by
  cases close with
  | nil => simp at h2
  | cons c cs =>
      refine ⟨by rw [position_shape]; simp, ?_⟩
      exact position_lag_aux s l c cs

/-- C1 witness instance. -/
theorem C1_position_lag_witness :
    (position 2 3 [(1 : ℚ), 2, 3])[1]? = some (some ((signal 2 3 [(1 : ℚ), 2, 3]).getD 0 0)) :=
  (C1_position_lag 2 3 [(1 : ℚ), 2, 3] (by norm_num) (by norm_num) (by norm_num)).2
    1 (by norm_num) (by norm_num)

/- ## Claim C2 -/

/-- C2 counterexample: with prices `[1, 2]`, windows `12 < 26` and initial cash
`10000 > 0`, the portfolio value at index 0 is `NaN` (the `Strategy_Return`
there is `NaN` and `cumprod` keeps `NaN` cells `NaN`), not `initialCash`. -/
theorem C2_portfolio_zero_cex :
    (portfolioValue 12 26 [(1 : ℚ), 2] 10000)[0]? = some none ∧
    (portfolioValue 12 26 [(1 : ℚ), 2] 10000)[0]? ≠ some (some 10000) := by
  refine ⟨rfl, ?_⟩
  rw [show (portfolioValue 12 26 [(1 : ℚ), 2] 10000)[0]? = some none from rfl]
  decide

/-- C2 (amended): for every non-empty price series and `initialCash > 0`, the
portfolio value at every index `1 ≤ i < n` equals
`initialCash · Π_{k=1..i} (1 + strategyReturn[k])`, and the buy-and-hold value
analogously with the raw returns; the value at index 0 is the `NaN` cell
(`(1 + NaN).cumprod()` keeps it `NaN`), not `initialCash`. -/
theorem C2_portfolio_product (s l : ℕ) (close : List ℚ) (cash : ℚ)
    (hne : close ≠ []) (hcash : 0 < cash) :
    (portfolioValue s l close cash)[0]? = some none ∧
    (buyHoldValue close cash)[0]? = some none ∧
    ∀ i, 1 ≤ i → i < close.length →
      (portfolioValue s l close cash)[i]?
        = some (some (cash * ∏ k ∈ Finset.Icc 1 i, (1 + srAt s l close k))) ∧
      (buyHoldValue close cash)[i]?
        = some (some (cash * ∏ k ∈ Finset.Icc 1 i, (1 + rrAt close k))) := by
  cases close with
  | nil => simp at hne
  | cons c cs =>
      rw [portfolioValue_shape, buyHoldValue_shape]
      refine ⟨by simp, by simp, ?_⟩
      intro i h1 hi
      have hi' : i ≤ cs.length := by
        simp only [List.length_cons] at hi; omega
      constructor
      · have h := shaped_cumprod_getElem? (srList s l c cs) cash i h1
          (by rw [srList_length]; exact hi')
        rw [show pvList s l c cs cash
              = (prefixProds 1 ((srList s l c cs).map (fun r => 1 + r))).map (fun v => v * cash)
            from rfl, h]
        have : (∏ k ∈ Finset.Icc 1 i, (1 + (srList s l c cs).getD (k - 1) 0))
            = ∏ k ∈ Finset.Icc 1 i, (1 + srAt s l (c :: cs) k) := by
          refine Finset.prod_congr rfl (fun k hk => ?_)
          have hk' := Finset.mem_Icc.mp hk
          rw [srAt_eq s l c cs k hk'.1 (le_trans hk'.2 hi')]
        rw [this]
      · have h := shaped_cumprod_getElem? (retsList c cs) cash i h1
          (by rw [retsList_length]; exact hi')
        rw [show bhList c cs cash
              = (prefixProds 1 ((retsList c cs).map (fun r => 1 + r))).map (fun v => v * cash)
            from rfl, h]
        have : (∏ k ∈ Finset.Icc 1 i, (1 + (retsList c cs).getD (k - 1) 0))
            = ∏ k ∈ Finset.Icc 1 i, (1 + rrAt (c :: cs) k) := by
          refine Finset.prod_congr rfl (fun k hk => ?_)
          have hk' := Finset.mem_Icc.mp hk
          rw [rrAt_eq c cs k hk'.1 (le_trans hk'.2 hi')]
        rw [this]

/-- C2 witness instance. -/
theorem C2_portfolio_product_witness :
    (portfolioValue 2 3 [(1 : ℚ), 2, 3] 10000)[1]?
      = some (some (10000 * ∏ k ∈ Finset.Icc 1 1, (1 + srAt 2 3 [(1 : ℚ), 2, 3] k))) :=
  ((C2_portfolio_product 2 3 [(1 : ℚ), 2, 3] 10000 (by simp) (by norm_num)).2.2
    1 (by norm_num) (by norm_num)).1

/- ## Claim C8 -/

theorem emaFrom_getD (a : ℚ) : ∀ (cs : List ℚ) (p : ℚ) (j : ℕ), j < cs.length →
    (emaFrom a p cs).getD j 0
      = a * cs.getD j 0 + (1 - a) * ((p :: emaFrom a p cs).getD j 0) := by
  intro cs
  induction cs with
  | nil => intro p j h; simp at h
  | cons x xs ih =>
      intro p j h
      cases j with
      | zero => simp [emaFrom]
      | succ j =>
          rw [show emaFrom a p (x :: xs)
                = (a * x + (1 - a) * p) :: emaFrom a (a * x + (1 - a) * p) xs from rfl]
          simp only [List.getD_cons_succ]
          exact ih (a * x + (1 - a) * p) j (by simpa using Nat.lt_of_succ_lt_succ h)

/-- C8: for every window > 0 and non-empty close series, the EMA series
satisfies exactly the `adjust=False` recurrence `ema[0] = close[0]`,
`ema[i] = α·close[i] + (1-α)·ema[i-1]` with `α = 2/(window+1)`. -/
theorem C8_ema_recurrence (w : ℕ) (close : List ℚ) (hw : 0 < w) (hne : close ≠ []) :
    (ema w close)[0]? = close[0]? ∧
    ∀ i, 1 ≤ i → i < close.length →
      (ema w close).getD i 0
        = emaAlpha w * close.getD i 0 + (1 - emaAlpha w) * (ema w close).getD (i - 1) 0 := by
  cases close with
  | nil => simp at hne
  | cons c cs =>
      rw [show ema w (c :: cs) = c :: emaFrom (emaAlpha w) c cs from rfl]
      refine ⟨by simp, ?_⟩
      intro i h1 hi
      obtain ⟨j, rfl⟩ : ∃ j, i = j + 1 := ⟨i - 1, by omega⟩
      have hj : j < cs.length := by
        simp only [List.length_cons] at hi; omega
      simp only [List.getD_cons_succ, Nat.add_sub_cancel]
      exact emaFrom_getD (emaAlpha w) cs c j hj

/-- C8 witness instance. -/
theorem C8_ema_recurrence_witness :
    (ema 2 [(1 : ℚ), 2]).getD 1 0
      = emaAlpha 2 * ([(1 : ℚ), 2].getD 1 0) + (1 - emaAlpha 2) * (ema 2 [(1 : ℚ), 2]).getD 0 0 :=
  (C8_ema_recurrence 2 [(1 : ℚ), 2] (by norm_num) (by simp)).2 1 (by norm_num) (by norm_num)

/- ## Claim C10 -/

/-- C10: on the first bar both EMAs equal `close[0]`, so the strict comparison
gives `signal[0] = 0`; hence `position[1] = signal[0] = 0`, and `position[0]`
is the `NaN` cell, so the strategy holds no position on the first two bars. -/
theorem C10_first_bars (s l : ℕ) (close : List ℚ) (hs : 0 < s) (hsl : s < l)
    (hne : close ≠ []) :
    (signal s l close)[0]? = some 0 ∧
    (2 ≤ close.length → (position s l close)[1]? = some (some 0)) ∧
    (position s l close)[0]? ≠ some (some 1) := by
  cases close with
  | nil => simp at hne
  | cons c cs =>
      refine ⟨by rw [signal_cons]; simp, ?_, ?_⟩
      · intro h2
        have := position_lag_aux s l c cs 1 (by norm_num)
          (by simp only [List.length_cons] at h2 ⊢; omega)
        have h0 : (signal s l (c :: cs)).getD (1 - 1) 0 = 0 := by rw [signal_cons]; rfl
        rw [this, h0]
      · rw [position_shape]
        simp

/-- C10 witness instance. -/
theorem C10_first_bars_witness :
    (signal 2 3 [(1 : ℚ), 2])[0]? = some 0 ∧ (position 2 3 [(1 : ℚ), 2])[1]? = some (some 0) :=
  ⟨(C10_first_bars 2 3 [(1 : ℚ), 2] (by norm_num) (by norm_num) (by simp)).1,
   (C10_first_bars 2 3 [(1 : ℚ), 2] (by norm_num) (by norm_num) (by simp)).2.1 (by norm_num)⟩

/- ## Claim C3 -/

theorem getLast?_shaped (ws : List ℚ) (hw : ws ≠ []) :
    (none :: ws.map some).getLast? = some (some (ws.getD (ws.length - 1) 0)) := by
  obtain ⟨j, hj⟩ : ∃ j, ws.length = j + 1 :=
    ⟨ws.length - 1, by have := List.length_pos.mpr hw; omega⟩
  rw [List.getLast?_eq_getElem?]
  have hlen : (none :: ws.map some).length - 1 = j + 1 := by simp [hj]
  rw [hlen, List.getElem?_cons_succ, getElem?_map_some ws 0 j (by omega), hj]
  simp

/-- C3 counterexample: with the invalid window pair `short = 26 ≥ long = 12`
(both ≥ 1, so pandas accepts the spans) and a 2-bar series, the backtest
raises nothing and produces metrics (`total_return = 0`), instead of failing
with `InvalidWindow`. -/
theorem C3_invalid_window_cex :
    runBacktest 26 12 [(1 : ℚ), 2] 10000 = BacktestOutcome.metrics (some 0) := by
  rw [runBacktest, if_neg (by omega), if_neg (by simp)]
  rw [show totalReturn 26 12 [(1 : ℚ), 2] 10000 = some 0 from by
    norm_num [totalReturn, portfolioValue, onePlus, strategyReturn, pctChange, posQ, position,
      shift1, signal, ema, emaFrom, emaAlpha, omul, cumprodSkip]]

/-- C3 (amended): the backtest itself performs no validation.  For windows
that pandas accepts (both ≥ 1) — including `shortWindow ≥ longWindow` — and
any series of at least 2 bars, metrics are produced (no `InvalidWindow`
error), and a 1-bar series yields a `NaN` metric rather than an
`InsufficientData` error.  The only failures are library exceptions: pandas'
own `span ≥ 1` `ValueError` when either window is below 1 (raised regardless
of the window ordering), and the `IndexError` of `.iloc[-1]` on a 0-bar
series — neither is the typed error the claim names. -/
theorem C3_no_validation (s l : ℕ) (cash : ℚ) :
    (∀ close : List ℚ, 1 ≤ s → 1 ≤ l → 2 ≤ close.length →
      ∃ q, runBacktest s l close cash = BacktestOutcome.metrics (some q)) ∧
    (1 ≤ s → 1 ≤ l → ∀ c : ℚ, runBacktest s l [c] cash = BacktestOutcome.metrics none) ∧
    (s < 1 ∨ l < 1 → ∀ close : List ℚ, runBacktest s l close cash
      = BacktestOutcome.valueError) ∧
    (1 ≤ s → 1 ≤ l → runBacktest s l [] cash = BacktestOutcome.indexError) := by
  refine ⟨?_, ?_, ?_, ?_⟩
  · intro close hs hl h2
    have hrb : runBacktest s l close cash
        = BacktestOutcome.metrics (totalReturn s l close cash) := by
      rw [runBacktest, if_neg (by omega), if_neg (by omega)]
    cases close with
    | nil => simp at h2
    | cons c cs =>
        have hcs : cs ≠ [] := by
          intro h; subst h; simp at h2
        have hpl : pvList s l c cs cash ≠ [] := by
          have hlen := pvList_length s l c cs cash
          intro h
          rw [h] at hlen
          simp only [List.length_nil] at hlen
          exact hcs (List.length_eq_zero.mp hlen.symm)
        refine ⟨((pvList s l c cs cash).getD ((pvList s l c cs cash).length - 1) 0 / cash - 1)
          * 100, ?_⟩
        rw [hrb, totalReturn, portfolioValue_shape, getLast?_shaped _ hpl]
        rfl
  · intro hs hl c
    rw [runBacktest, if_neg (by omega), if_neg (by simp)]
    rfl
  · intro h close
    rw [runBacktest, if_pos h]
  · intro hs hl
    rw [runBacktest, if_neg (by omega), if_pos (show ([] : List ℚ).length = 0 from rfl)]

/-- C3 witness instance. -/
theorem C3_no_validation_witness :
    ∃ q, runBacktest 26 12 [(1 : ℚ), 2] 10000 = BacktestOutcome.metrics (some q) :=
  (C3_no_validation 26 12 10000).1 [(1 : ℚ), 2] (by norm_num) (by norm_num) (by norm_num)

/- ## Claim C6 -/

theorem definedVals_shape (ys : List ℚ) : definedVals (none :: ys.map some) = ys := by
  simp [definedVals]

theorem sum_sq_nonneg (xs : List ℚ) (m : ℚ) : 0 ≤ (xs.map (fun x => (x - m) ^ 2)).sum := by
  induction xs with
  | nil => simp
  | cons a xs ih =>
      rw [List.map_cons, List.sum_cons]
      have := sq_nonneg (a - m)
      linarith

theorem sq_sum_zero (m : ℚ) : ∀ (xs : List ℚ),
    (xs.map (fun x => (x - m) ^ 2)).sum = 0 → ∀ x ∈ xs, x = m := by
  intro xs
  induction xs with
  | nil => intro _ x hx; simp at hx
  | cons a xs ih =>
      intro h x hx
      rw [List.map_cons, List.sum_cons] at h
      have ha := sq_nonneg (a - m)
      have hxs := sum_sq_nonneg xs m
      have ha0 : (a - m) ^ 2 = 0 := by linarith
      have hs0 : (xs.map (fun x => (x - m) ^ 2)).sum = 0 := by linarith
      rcases List.mem_cons.mp hx with h' | h'
      · subst h'
        have := pow_eq_zero_iff (n := 2) (by norm_num) |>.mp ha0
        linarith [sub_eq_zero.mp this]
      · exact ih hs0 x h'

theorem var_zero_mean (xs : List ℚ) (hv : sampleVarQ xs = some 0) (h0 : (0 : ℚ) ∈ xs) :
    meanQ xs = some 0 ∧ 2 ≤ xs.length := by
  unfold sampleVarQ at hv
  by_cases hlen : xs.length < 2
  · rw [if_pos hlen] at hv; exact absurd hv (by simp)
  · rw [if_neg hlen] at hv
    have hlen2 : 2 ≤ xs.length := by omega
    have hden : ((xs.length : ℚ) - 1) ≠ 0 := by
      have : (2 : ℚ) ≤ (xs.length : ℚ) := by exact_mod_cast hlen2
      intro h; rw [sub_eq_zero] at h; rw [h] at this; norm_num at this
    have hS : (xs.map (fun x => (x - xs.sum / xs.length) ^ 2)).sum = 0 := by
      have := Option.some.inj hv
      rcases div_eq_zero_iff.mp this with h | h
      · exact h
      · exact absurd h hden
    have hall := sq_sum_zero (xs.sum / xs.length) xs hS
    have hmu : xs.sum / xs.length = 0 := (hall 0 h0).symm
    have hne : xs.length ≠ 0 := by omega
    constructor
    · rw [meanQ, if_neg hne, hmu]
    · exact hlen2

theorem zipWith_getElem?_eq {α β γ : Type} (f : α → β → γ) :
    ∀ (as : List α) (bs : List β) (j : ℕ) (x : α) (y : β),
      as[j]? = some x → bs[j]? = some y → (List.zipWith f as bs)[j]? = some (f x y) := by
  intro as
  induction as with
  | nil => intro bs j x y hx _; simp at hx
  | cons a as ih =>
      intro bs j x y hx hy
      cases bs with
      | nil => simp at hy
      | cons b bs =>
          cases j with
          | zero =>
              simp only [List.getElem?_cons_zero, Option.some.injEq] at hx hy
              subst hx; subst hy
              simp
          | succ j =>
              simp only [List.getElem?_cons_succ] at hx hy
              rw [List.zipWith_cons_cons, List.getElem?_cons_succ]
              exact ih bs j x y hx hy

theorem srList_head_zero (s l : ℕ) (c c2 : ℚ) (cs : List ℚ) :
    (srList s l c (c2 :: cs)).getD 0 0 = 0 := by
  have hn : (0 : ℕ) + 1 < (signal s l (c :: c2 :: cs)).length := by
    rw [signal_length]; simp
  have hsig0 : (signal s l (c :: c2 :: cs))[0]? = some 0 := by
    rw [signal_cons]; simp
  have hdrop : (signal s l (c :: c2 :: cs)).dropLast[0]? = some 0 := by
    rw [dropLast_getElem? _ 0 hn, hsig0]
  have hsq : (sigQList s l c (c2 :: cs))[0]? = some 0 := by
    rw [sigQList, List.getElem?_map, hdrop]
    simp
  have hr0 : 0 < (retsList c (c2 :: cs)).length := by rw [retsList_length]; simp
  have hr : (retsList c (c2 :: cs))[0]? = some ((retsList c (c2 :: cs)).getD 0 0) := by
    rw [List.getElem?_eq_getElem hr0, List.getD_eq_getElem _ 0 hr0]
  rw [srList, List.getD_eq_getElem?_getD,
    zipWith_getElem?_eq (fun x y => x * y) _ _ 0 _ _ hr hsq]
  simp

/-- C6: whenever the sample variance of the defined strategy returns is 0, the
Sharpe ratio of src/app.py:36 / src/main.py:53 evaluates to the float `NaN`
(the division is `0/0`, since the defined strategy returns always contain the
zero at row 1), which is a sentinel distinct from every numeric value — in
particular it is not the number 0 and no exception is raised. -/
theorem C6_sharpe_undefined (s l : ℕ) (close : List ℚ) (hs : 0 < s) (hsl : s < l)
    (hv : sampleVarQ (definedVals (strategyReturn s l close)) = some 0) :
    sharpeRatio (strategyReturn s l close) = SharpeVal.nan ∧
    ∀ m v : ℚ, sharpeRatio (strategyReturn s l close) ≠ SharpeVal.val m v := by
  match close with
  | [] =>
      rw [show strategyReturn s l [] = [] from rfl] at hv
      exact absurd hv (by simp [definedVals, sampleVarQ])
  | [c] =>
      rw [show strategyReturn s l [c] = [none] from rfl] at hv
      exact absurd hv (by simp [definedVals, sampleVarQ])
  | c :: c2 :: cs =>
      rw [strategyReturn_shape, definedVals_shape] at hv
      have hlen0 : 0 < (srList s l c (c2 :: cs)).length := by
        rw [srList_length]; simp
      have h0mem : (0 : ℚ) ∈ srList s l c (c2 :: cs) := by
        have hmem := List.getElem_mem hlen0
        rw [← List.getD_eq_getElem _ 0 hlen0, srList_head_zero] at hmem
        exact hmem
      obtain ⟨hm, _⟩ := var_zero_mean _ hv h0mem
      have hsr : sharpeRatio (strategyReturn s l (c :: c2 :: cs)) = SharpeVal.nan := by
        rw [strategyReturn_shape, sharpeRatio, definedVals_shape, hm, hv]
        simp
      exact ⟨hsr, by rw [hsr]; intro m v h; exact SharpeVal.noConfusion h⟩

/-- C6 witness instance. -/
theorem C6_sharpe_undefined_witness :
    sharpeRatio (strategyReturn 2 3 [(1 : ℚ), 1, 1]) = SharpeVal.nan :=
  (C6_sharpe_undefined 2 3 [(1 : ℚ), 1, 1] (by norm_num) (by norm_num)
    (by norm_num [strategyReturn, pctChange, posQ, position, shift1, signal, ema, emaFrom,
      emaAlpha, omul, definedVals, sampleVarQ, List.filterMap_cons, id])).1

/- ## Claim C9 -/

theorem foldl_min_le_init : ∀ (cs : List ℚ) (c : ℚ), cs.foldl min c ≤ c := by
  intro cs
  induction cs with
  | nil => intro c; exact le_refl c
  | cons x xs ih =>
      intro c
      exact le_trans (ih (min c x)) (min_le_left c x)

theorem foldl_min_le_mem : ∀ (cs : List ℚ) (c x : ℚ), x ∈ cs → cs.foldl min c ≤ x := by
  intro cs
  induction cs with
  | nil => intro c x hx; simp at hx
  | cons y ys ih =>
      intro c x hx
      rcases List.mem_cons.mp hx with h | h
      · subst h
        exact le_trans (foldl_min_le_init ys (min c x)) (min_le_right c x)
      · exact ih (min c y) x h

theorem le_foldl_max_init : ∀ (cs : List ℚ) (c : ℚ), c ≤ cs.foldl max c := by
  intro cs
  induction cs with
  | nil => intro c; exact le_refl c
  | cons x xs ih =>
      intro c
      exact le_trans (le_max_left c x) (ih (max c x))

theorem le_foldl_max_mem : ∀ (cs : List ℚ) (c x : ℚ), x ∈ cs → x ≤ cs.foldl max c := by
  intro cs
  induction cs with
  | nil => intro c x hx; simp at hx
  | cons y ys ih =>
      intro c x hx
      rcases List.mem_cons.mp hx with h | h
      · subst h
        exact le_trans (le_max_right c x) (le_foldl_max_init ys (max c x))
      · exact ih (max c y) x h

theorem emaAlpha_nonneg (w : ℕ) : 0 ≤ emaAlpha w := by
  unfold emaAlpha; positivity

theorem emaAlpha_le_one (w : ℕ) (hw : 0 < w) : emaAlpha w ≤ 1 := by
  unfold emaAlpha
  rw [div_le_one (by positivity)]
  have : (1 : ℚ) ≤ (w : ℚ) := by exact_mod_cast hw
  linarith

theorem emaFrom_bounded (a lo hi : ℚ) (h0 : 0 ≤ a) (h1 : a ≤ 1) :
    ∀ (xs : List ℚ) (p : ℚ), lo ≤ p → p ≤ hi → (∀ x ∈ xs, lo ≤ x ∧ x ≤ hi) →
      ∀ y ∈ emaFrom a p xs, lo ≤ y ∧ y ≤ hi := by
  intro xs
  induction xs with
  | nil => intro p _ _ _ y hy; simp [emaFrom] at hy
  | cons x xs ih =>
      intro p hlo hhi hmem y hy
      have hx := hmem x (List.mem_cons_self x xs)
      have hq1 : lo ≤ a * x + (1 - a) * p := by nlinarith [hx.1, hlo, h0, h1]
      have hq2 : a * x + (1 - a) * p ≤ hi := by nlinarith [hx.2, hhi, h0, h1]
      rw [show emaFrom a p (x :: xs)
            = (a * x + (1 - a) * p) :: emaFrom a (a * x + (1 - a) * p) xs from rfl] at hy
      rcases List.mem_cons.mp hy with h | h
      · subst h; exact ⟨hq1, hq2⟩
      · exact ih (a * x + (1 - a) * p) hq1 hq2
          (fun z hz => hmem z (List.mem_cons_of_mem x hz)) y h

theorem ema_bounded (w : ℕ) (hw : 0 < w) (c : ℚ) (cs : List ℚ) :
    ∀ y ∈ ema w (c :: cs), listMin (c :: cs) ≤ y ∧ y ≤ listMax (c :: cs) := by
  intro y hy
  have hminc : listMin (c :: cs) ≤ c := foldl_min_le_init cs c
  have hmaxc : c ≤ listMax (c :: cs) := le_foldl_max_init cs c
  rw [show ema w (c :: cs) = c :: emaFrom (emaAlpha w) c cs from rfl] at hy
  rcases List.mem_cons.mp hy with h | h
  · subst h; exact ⟨hminc, hmaxc⟩
  · exact emaFrom_bounded (emaAlpha w) _ _ (emaAlpha_nonneg w) (emaAlpha_le_one w hw) cs c
      hminc hmaxc (fun x hx => ⟨foldl_min_le_mem cs c x hx, le_foldl_max_mem cs c x hx⟩) y h

/-- C9: for every valid window pair `0 < short < long` and every non-empty
close series, every value of the short and of the long EMA lies in the closed
interval between the minimum and the maximum of the closes (each EMA value is
a convex combination of past closes). -/
theorem C9_ema_bounds (s l : ℕ) (c : ℚ) (cs : List ℚ) (hs : 0 < s) (hsl : s < l) :
    ∀ y, (y ∈ ema s (c :: cs) ∨ y ∈ ema l (c :: cs)) →
      listMin (c :: cs) ≤ y ∧ y ≤ listMax (c :: cs) := by
  intro y hy
  rcases hy with h | h
  · exact ema_bounded s hs c cs y h
  · exact ema_bounded l (by omega) c cs y h

/-- C9 witness instance. -/
theorem C9_ema_bounds_witness :
    listMin [(1 : ℚ), 2] ≤ 2 ∧ (2 : ℚ) ≤ listMax [(1 : ℚ), 2] :=
  C9_ema_bounds 1 2 1 [2] (by norm_num) (by norm_num) 2
    (Or.inl (by norm_num [ema, emaFrom, emaAlpha]))

/- ## Claims C4 and C5: trade extraction -/

theorem idxAll_length (v : Option ℤ) :
    ∀ (xs : List (Option ℤ)) (i : ℕ), (idxAll v i xs).length = cntV v xs := by
  intro xs
  induction xs with
  | nil => intro i; rfl
  | cons x xs ih =>
      intro i
      by_cases h : x = v <;> simp [idxAll, cntV, h, ih, Nat.add_comm]

theorem idxAll_ge (v : Option ℤ) :
    ∀ (xs : List (Option ℤ)) (i : ℕ) (a : ℕ), a ∈ idxAll v i xs → i ≤ a := by
  intro xs
  induction xs with
  | nil => intro i a ha; simp [idxAll] at ha
  | cons x xs ih =>
      intro i a ha
      by_cases h : x = v
      · rw [idxAll, if_pos h] at ha
        rcases List.mem_cons.mp ha with h' | h'
        · omega
        · have := ih (i + 1) a h'; omega
      · rw [idxAll, if_neg h] at ha
        have := ih (i + 1) a ha; omega

theorem idxAll_pairwise (v : Option ℤ) :
    ∀ (xs : List (Option ℤ)) (i : ℕ), List.Pairwise (fun a b => a < b) (idxAll v i xs) := by
  intro xs
  induction xs with
  | nil => intro i; simp [idxAll]
  | cons x xs ih =>
      intro i
      by_cases h : x = v
      · rw [idxAll, if_pos h]
        refine List.Pairwise.cons ?_ (ih (i + 1))
        intro b hb
        have := idxAll_ge v xs (i + 1) b hb
        omega
      · rw [idxAll, if_neg h]
        exact ih (i + 1)

theorem getLastD_01 : ∀ (zs : List ℤ) (w : ℤ), (w = 0 ∨ w = 1) →
    (∀ z ∈ zs, z = 0 ∨ z = 1) → (zs.getLastD w = 0 ∨ zs.getLastD w = 1) := by
  intro zs
  induction zs with
  | nil => intro w hw _; exact hw
  | cons u us ih =>
      intro w _ hz
      rw [List.getLastD_cons]
      exact ih u (hz u (List.mem_cons_self u us)) (fun z hz' => hz z (List.mem_cons_of_mem u hz'))

theorem diffAux_balance : ∀ (zs : List ℤ) (a : ℤ), (a = 0 ∨ a = 1) →
    (∀ z ∈ zs, z = 0 ∨ z = 1) →
    (cntV (some 1) (diffAux (some a) (zs.map some)) : ℤ) + a
      = (cntV (some (-1)) (diffAux (some a) (zs.map some)) : ℤ) + zs.getLastD a := by
  intro zs
  induction zs with
  | nil => intro a _ _; simp [diffAux, cntV]
  | cons z zs ih =>
      intro a ha hz
      have hz0 := hz z (List.mem_cons_self z zs)
      have hz' : ∀ w ∈ zs, w = 0 ∨ w = 1 := fun w hw => hz w (List.mem_cons_of_mem z hw)
      have IH := ih z hz0 hz'
      rw [List.map_cons,
        show diffAux (some a) (some z :: zs.map some)
          = some (z - a) :: diffAux (some z) (zs.map some) from rfl,
        List.getLastD_cons,
        show ∀ t, cntV (some 1) (some (z - a) :: t)
          = (if some (z - a) = some (1 : ℤ) then 1 else 0) + cntV (some 1) t from fun t => rfl,
        show ∀ t, cntV (some (-1)) (some (z - a) :: t)
          = (if some (z - a) = some (-1 : ℤ) then 1 else 0) + cntV (some (-1)) t
          from fun t => rfl]
      rcases ha with ha | ha <;> rcases hz0 with hz1 | hz1 <;> subst ha <;> subst hz1 <;>
        simp only [List.getLastD_eq_getLast?] at IH ⊢ <;> norm_num <;> omega

theorem zipWith_indicator_mem :
    ∀ (as bs : List ℚ) (z : ℤ),
      z ∈ List.zipWith (fun a b => if a > b then (1 : ℤ) else 0) as bs → z = 0 ∨ z = 1 := by
  intro as
  induction as with
  | nil => intro bs z hz; simp at hz
  | cons a as ih =>
      intro bs z hz
      cases bs with
      | nil => simp at hz
      | cons b bs =>
          rw [List.zipWith_cons_cons] at hz
          rcases List.mem_cons.mp hz with h | h
          · by_cases hc : a > b
            · rw [if_pos hc] at h; right; exact h
            · rw [if_neg hc] at h; left; exact h
          · exact ih bs z h

theorem signal_mem_01 (s l : ℕ) (close : List ℚ) :
    ∀ z ∈ signal s l close, z = 0 ∨ z = 1 := by
  intro z hz
  rw [signal] at hz
  exact zipWith_indicator_mem _ _ z hz

theorem entries_exits_balance (s l : ℕ) (close : List ℚ) :
    (entriesIdx (position s l close)).length = (exitsIdx (position s l close)).length ∨
    (entriesIdx (position s l close)).length = (exitsIdx (position s l close)).length + 1 := by
  match close with
  | [] => left; rfl
  | [c] => left; rfl
  | c :: c2 :: cs =>
      have hsigT : (signal s l (c :: c2 :: cs)).length = cs.length + 2 := by
        rw [signal_length]; rfl
      rcases hT : List.zipWith (fun a b => if a > b then (1 : ℤ) else 0)
          (emaFrom (emaAlpha s) c (c2 :: cs)) (emaFrom (emaAlpha l) c (c2 :: cs)) with _ | ⟨t0, ts⟩
      · exfalso
        have := signal_cons s l c (c2 :: cs)
        rw [hT] at this
        rw [this] at hsigT
        simp at hsigT
      · have hsig : signal s l (c :: c2 :: cs) = 0 :: t0 :: ts := by
          rw [signal_cons, hT]
        have hpos : position s l (c :: c2 :: cs)
            = none :: some 0 :: ((t0 :: ts).dropLast.map some) := by
          rw [position_shape, hsig, List.dropLast_cons₂]
          rfl
        set zs := (t0 :: ts).dropLast with hzs
        have hz : ∀ z ∈ zs, z = 0 ∨ z = 1 := by
          intro z hz
          have hzmem : z ∈ t0 :: ts := (List.dropLast_sublist (t0 :: ts)).subset hz
          have : z ∈ signal s l (c :: c2 :: cs) := by
            rw [hsig]; exact List.mem_cons_of_mem 0 hzmem
          exact signal_mem_01 s l (c :: c2 :: cs) z this
        have hdiff : diffO (position s l (c :: c2 :: cs))
            = none :: none :: diffAux (some 0) (zs.map some) := by
          rw [hpos]
          rfl
        have hent : (entriesIdx (position s l (c :: c2 :: cs))).length
            = cntV (some 1) (diffAux (some 0) (zs.map some)) := by
          rw [entriesIdx, hdiff]
          rw [show idxAll (some 1) 0 (none :: none :: diffAux (some 0) (zs.map some))
                = idxAll (some 1) 2 (diffAux (some 0) (zs.map some)) from by
            rw [idxAll, if_neg (by simp), idxAll, if_neg (by simp)]]
          exact idxAll_length _ _ _
        have hexi : (exitsIdx (position s l (c :: c2 :: cs))).length
            = cntV (some (-1)) (diffAux (some 0) (zs.map some)) := by
          rw [exitsIdx, hdiff]
          rw [show idxAll (some (-1)) 0 (none :: none :: diffAux (some 0) (zs.map some))
                = idxAll (some (-1)) 2 (diffAux (some 0) (zs.map some)) from by
            rw [idxAll, if_neg (by simp), idxAll, if_neg (by simp)]]
          exact idxAll_length _ _ _
        have hbal := diffAux_balance zs 0 (Or.inl rfl) hz
        have hlast := getLastD_01 zs 0 (Or.inl rfl) hz
        rw [hent, hexi]
        rcases hlast with h | h <;> rw [h] at hbal <;> [left; right] <;> omega

/-- C5: trade extraction never fails on a series produced by the signal
engine: the `pd.DataFrame` construction always receives equally many entries
and exits (after the single synthetic final exit), and empty entries and
exits yield the empty trade list rather than an error. -/
theorem C5_extract_total (s l : ℕ) (close : List ℚ) (hs : 0 < s) (hsl : s < l) :
    ∃ ts, extractTrades close (position s l close) = some ts ∧
      ((entriesIdx (position s l close) = [] ∧ exitsIdx (position s l close) = []) →
        ts = []) := by
  rcases entries_exits_balance s l close with h | h
  · refine ⟨((entriesIdx (position s l close)).zip (exitsIdx (position s l close))).map
      (fun p => mkTrade close p.1 p.2), ?_, ?_⟩
    · simp only [extractTrades]
      rw [if_neg (show ¬((exitsIdx (position s l close)).length
            < (entriesIdx (position s l close)).length) from by omega)]
      rw [if_pos h]
    · rintro ⟨he, _⟩
      rw [he]
      simp
  · refine ⟨((entriesIdx (position s l close)).zip
        (exitsIdx (position s l close) ++ [close.length - 1])).map
      (fun p => mkTrade close p.1 p.2), ?_, ?_⟩
    · simp only [extractTrades]
      rw [if_pos (show (exitsIdx (position s l close)).length
            < (entriesIdx (position s l close)).length from by omega)]
      rw [if_pos (show (entriesIdx (position s l close)).length
            = (exitsIdx (position s l close) ++ [close.length - 1]).length from by
          simp only [List.length_append, List.length_cons, List.length_nil]; omega)]
    · rintro ⟨he, _⟩
      exfalso
      rw [he] at h
      simp at h

/-- C5 witness instance. -/
theorem C5_extract_total_witness :
    ∃ ts, extractTrades [(1 : ℚ), 2] (position 2 3 [(1 : ℚ), 2]) = some ts ∧
      ((entriesIdx (position 2 3 [(1 : ℚ), 2]) = [] ∧
        exitsIdx (position 2 3 [(1 : ℚ), 2]) = []) → ts = []) :=
  C5_extract_total 2 3 [(1 : ℚ), 2] (by norm_num) (by norm_num)

/-- C4: for every position series with `k` entry transitions and `k` or `k-1`
exit transitions, trade extraction returns exactly `k` trades, pairing the
`j`-th entry with the `j`-th exit in chronological order (the entry and exit
index lists are strictly increasing); when entries outnumber exits, the single
synthetic exit uses the last bar's row and closing price, so the last trade
exits on the series' final row. -/
theorem C4_trade_pairing (close : List ℚ) (pos : List (Option ℤ)) (k : ℕ)
    (he : (entriesIdx pos).length = k)
    (hx : (exitsIdx pos).length = k ∨ (exitsIdx pos).length + 1 = k) :
    ∃ ts, extractTrades close pos = some ts ∧ ts.length = k ∧
      List.Pairwise (fun a b => a < b) (entriesIdx pos) ∧
      List.Pairwise (fun a b => a < b) (exitsIdx pos) ∧
      (∀ j, j < (exitsIdx pos).length →
        ts.getD j dummyTrade
          = mkTrade close ((entriesIdx pos).getD j 0) ((exitsIdx pos).getD j 0)) ∧
      ((exitsIdx pos).length + 1 = k →
        ts.getD (k - 1) dummyTrade
          = mkTrade close ((entriesIdx pos).getD (k - 1) 0) (close.length - 1)) := by
  rcases hx with hx | hx
  · refine ⟨((entriesIdx pos).zip (exitsIdx pos)).map (fun p => mkTrade close p.1 p.2),
      ?_, ?_, idxAll_pairwise _ _ _, idxAll_pairwise _ _ _, ?_, ?_⟩
    · simp only [extractTrades]
      rw [if_neg (show ¬((exitsIdx pos).length < (entriesIdx pos).length) from by omega)]
      rw [if_pos (by omega)]
    · simp only [List.length_map, List.length_zip]; omega
    · intro j hj
      have hje : j < (entriesIdx pos).length := by omega
      have hent : (entriesIdx pos)[j]? = some ((entriesIdx pos).getD j 0) := by
        rw [List.getElem?_eq_getElem hje, List.getD_eq_getElem _ 0 hje]
      have hexi : (exitsIdx pos)[j]? = some ((exitsIdx pos).getD j 0) := by
        rw [List.getElem?_eq_getElem hj, List.getD_eq_getElem _ 0 hj]
      rw [List.getD_eq_getElem?_getD, List.getElem?_map, List.zip_eq_zipWith,
        zipWith_getElem?_eq Prod.mk _ _ j _ _ hent hexi]
      rfl
    · intro habs; omega
  · refine ⟨((entriesIdx pos).zip (exitsIdx pos ++ [close.length - 1])).map
      (fun p => mkTrade close p.1 p.2),
      ?_, ?_, idxAll_pairwise _ _ _, idxAll_pairwise _ _ _, ?_, ?_⟩
    · simp only [extractTrades]
      rw [if_pos (show (exitsIdx pos).length < (entriesIdx pos).length from by omega)]
      rw [if_pos (show (entriesIdx pos).length
            = (exitsIdx pos ++ [close.length - 1]).length from by
          simp only [List.length_append, List.length_cons, List.length_nil]; omega)]
    · simp only [List.length_map, List.length_zip, List.length_append, List.length_cons,
        List.length_nil]
      omega
    · intro j hj
      have hje : j < (entriesIdx pos).length := by omega
      have hent : (entriesIdx pos)[j]? = some ((entriesIdx pos).getD j 0) := by
        rw [List.getElem?_eq_getElem hje, List.getD_eq_getElem _ 0 hje]
      have hexi : (exitsIdx pos ++ [close.length - 1])[j]? = some ((exitsIdx pos).getD j 0) := by
        rw [List.getElem?_append_left hj, List.getElem?_eq_getElem hj,
          List.getD_eq_getElem _ 0 hj]
      rw [List.getD_eq_getElem?_getD, List.getElem?_map, List.zip_eq_zipWith,
        zipWith_getElem?_eq Prod.mk _ _ j _ _ hent hexi]
      rfl
    · intro _
      have hk1 : k - 1 < (entriesIdx pos).length := by omega
      have hent : (entriesIdx pos)[k - 1]? = some ((entriesIdx pos).getD (k - 1) 0) := by
        rw [List.getElem?_eq_getElem hk1, List.getD_eq_getElem _ 0 hk1]
      have hk2 : k - 1 = (exitsIdx pos).length := by omega
      have hexi : (exitsIdx pos ++ [close.length - 1])[k - 1]? = some (close.length - 1) := by
        rw [hk2]
        simp
      rw [List.getD_eq_getElem?_getD, List.getElem?_map, List.zip_eq_zipWith,
        zipWith_getElem?_eq Prod.mk _ _ (k - 1) _ _ hent hexi]
      rfl

/-- C4 witness instance. -/
theorem C4_trade_pairing_witness :
    (extractTrades [(10 : ℚ), 20] [some 0, some 1]).isSome = true := by
  obtain ⟨ts, hts, -⟩ :=
    C4_trade_pairing [(10 : ℚ), 20] [some 0, some 1] 1 (by decide) (Or.inr (by decide))
  rw [hts]
  rfl

/- ## Claim C7: the optimizer -/

theorem foldl_optStep_some (close : List ℚ) :
    ∀ (L : List (ℕ × ℕ)) (p : ℕ × ℕ),
      L.foldl (optStep close) (some (trOf close p), p)
        = (some (trOf close (bestFrom close p L)), bestFrom close p L) := by
  intro L
  induction L with
  | nil => intro p; rfl
  | cons q qs ih =>
      intro p
      rw [List.foldl_cons]
      by_cases h : trOf close p < trOf close q
      · rw [show optStep close (some (trOf close p), p) q = (some (trOf close q), q) from by
          simp [optStep, h]]
        rw [ih q]
        rw [show bestFrom close p (q :: qs) = if trOf close p < trOf close q
              then bestFrom close q qs else bestFrom close p qs from rfl, if_pos h]
      · rw [show optStep close (some (trOf close p), p) q = (some (trOf close p), p) from by
          simp [optStep, h]]
        rw [ih p]
        rw [show bestFrom close p (q :: qs) = if trOf close p < trOf close q
              then bestFrom close q qs else bestFrom close p qs from rfl, if_neg h]

theorem optimize_ema_eq (close : List ℚ) :
    optimize_ema close = bestFrom close (5, 20) candPairs.tail := by
  rw [optimize_ema]
  rw [show candPairs = (5, 20) :: candPairs.tail from rfl]
  rw [List.foldl_cons]
  rw [show optStep close (none, (0, 0)) (5, 20) = (some (trOf close (5, 20)), (5, 20)) from rfl]
  rw [foldl_optStep_some]
  rfl

theorem bestFrom_mem (close : List ℚ) :
    ∀ (L : List (ℕ × ℕ)) (p : ℕ × ℕ), bestFrom close p L ∈ p :: L := by
  intro L
  induction L with
  | nil => intro p; simp [bestFrom]
  | cons q qs ih =>
      intro p
      rw [show bestFrom close p (q :: qs) = if trOf close p < trOf close q
            then bestFrom close q qs else bestFrom close p qs from rfl]
      by_cases h : trOf close p < trOf close q
      · rw [if_pos h]
        rcases List.mem_cons.mp (ih q) with h' | h'
        · rw [h']; simp
        · simp [List.mem_cons, h']
      · rw [if_neg h]
        rcases List.mem_cons.mp (ih p) with h' | h'
        · rw [h']; simp
        · simp [List.mem_cons, h']

theorem bestFrom_le (close : List ℚ) :
    ∀ (L : List (ℕ × ℕ)) (p : ℕ × ℕ) (r : ℕ × ℕ), r ∈ p :: L →
      trOf close r ≤ trOf close (bestFrom close p L) := by
  intro L
  induction L with
  | nil =>
      intro p r hr
      rcases List.mem_cons.mp hr with h | h
      · rw [h]; exact le_refl _
      · simp at h
  | cons q qs ih =>
      intro p r hr
      rw [show bestFrom close p (q :: qs) = if trOf close p < trOf close q
            then bestFrom close q qs else bestFrom close p qs from rfl]
      by_cases h : trOf close p < trOf close q
      · rw [if_pos h]
        rcases List.mem_cons.mp hr with h' | h'
        · rw [h']
          exact le_trans (le_of_lt h) (ih q q (List.mem_cons_self q qs))
        · exact ih q r h'
      · rw [if_neg h]
        rcases List.mem_cons.mp hr with h' | h'
        · exact ih p r (by rw [h']; exact List.mem_cons_self p qs)
        · rcases List.mem_cons.mp h' with h'' | h''
          · rw [h'']
            exact le_trans (not_lt.mp h) (ih p p (List.mem_cons_self p qs))
          · exact ih p r (List.mem_cons_of_mem p h'')

theorem bestFrom_first (close : List ℚ) :
    ∀ (L : List (ℕ × ℕ)) (p : ℕ × ℕ),
      ∃ i, (p :: L)[i]? = some (bestFrom close p L) ∧
        ∀ j, j < i →
          trOf close ((p :: L).getD j (0, 0)) < trOf close (bestFrom close p L) := by
  intro L
  induction L with
  | nil =>
      intro p
      exact ⟨0, rfl, fun j hj => absurd hj (by omega)⟩
  | cons q qs ih =>
      intro p
      rw [show bestFrom close p (q :: qs) = if trOf close p < trOf close q
            then bestFrom close q qs else bestFrom close p qs from rfl]
      by_cases h : trOf close p < trOf close q
      · rw [if_pos h]
        obtain ⟨i, hi, hstrict⟩ := ih q
        refine ⟨i + 1, by simpa using hi, ?_⟩
        intro j hj
        cases j with
        | zero =>
            simp only [List.getD_cons_zero]
            exact lt_of_lt_of_le h (bestFrom_le close qs q q (List.mem_cons_self q qs))
        | succ j =>
            have := hstrict j (by omega)
            simpa using this
      · rw [if_neg h]
        obtain ⟨i, hi, hstrict⟩ := ih p
        cases i with
        | zero =>
            refine ⟨0, ?_, fun j hj => absurd hj (by omega)⟩
            simp only [List.getElem?_cons_zero] at hi ⊢
            exact hi
        | succ i =>
            refine ⟨i + 2, ?_, ?_⟩
            · simp only [List.getElem?_cons_succ] at hi ⊢
              exact hi
            · intro j hj
              cases j with
              | zero =>
                  have h0 := hstrict 0 (by omega)
                  simp only [List.getD_cons_zero] at h0 ⊢
                  exact h0
              | succ j =>
                  cases j with
                  | zero =>
                      have h0 := hstrict 0 (by omega)
                      simp only [List.getD_cons_zero] at h0
                      simp only [List.getD_cons_succ, List.getD_cons_zero]
                      exact lt_of_le_of_lt (not_lt.mp h) h0
                  | succ j =>
                      have hs := hstrict (j + 1) (by omega)
                      simp only [List.getD_cons_succ] at hs ⊢
                      exact hs

/-- C7: the optimizer visits exactly the grid pairs with `short < long`
(shorts ascending in the outer loop, longs in the inner loop), scores each by
`Π(1 + strategyReturn) − 1`, starts its running best at `-∞` (so the result
is always one of the visited pairs), and returns the pair with the strictly
greatest total return, keeping the earliest pair in iteration order on ties. -/
theorem C7_optimizer (close : List ℚ) :
    optimize_ema close ∈ candPairs ∧
    (∀ p ∈ candPairs, p.1 < p.2) ∧
    (∀ s ∈ shortGrid, ∀ l ∈ longGrid, s < l → (s, l) ∈ candPairs) ∧
    (∀ p ∈ candPairs,
      optTotalReturn p.1 p.2 close
        ≤ optTotalReturn (optimize_ema close).1 (optimize_ema close).2 close) ∧
    ∃ i, candPairs[i]? = some (optimize_ema close) ∧
      ∀ j, j < i →
        optTotalReturn (candPairs.getD j (0, 0)).1 (candPairs.getD j (0, 0)).2 close
          < optTotalReturn (optimize_ema close).1 (optimize_ema close).2 close := by
  have he : optimize_ema close = bestFrom close (5, 20) candPairs.tail := optimize_ema_eq close
  have hc : candPairs = (5, 20) :: candPairs.tail := rfl
  refine ⟨?_, by decide, by decide, ?_, ?_⟩
  · rw [he, hc]
    exact bestFrom_mem close _ _
  · intro p hp
    rw [he]
    exact bestFrom_le close candPairs.tail (5, 20) p (by rw [← hc]; exact hp)
  · obtain ⟨i, hi, hstrict⟩ := bestFrom_first close candPairs.tail (5, 20)
    refine ⟨i, ?_, ?_⟩
    · rw [he, hc]
      exact hi
    · intro j hj
      rw [he, hc]
      exact hstrict j hj

end EMACross
